import Mathlib

/-!
Verification of the Gomory cutting-plane solver (Python package `gomory`).

The Python modules `fraction_utils.py`, `tableau.py`, `simplex.py`,
`dual_simplex.py`, `gomory_cut.py`, `problem.py` and `solver.py` are embedded
shallowly below.  Python `Fraction` values are modelled by `ℚ` (both are
canonical gcd-reduced pairs with positive denominator); Python lists by Lean
`List`s.  Reads `xs[i]` are modelled by `List.getD xs i default`; the code only
ever indexes in bounds on the tableaus it builds, where both semantics agree.
Loops `for i in range(n)` are modelled by maps/folds over `List.range n` or by
structural recursion over the zipped lists being scanned, and exceptions
(`ValueError`, `NotImplementedError`) by `Option`.
-/

namespace Gomory

/-- Embedding of `fraction_utils.floor`.  Both Python branches compute the
floor quotient `x.numerator // x.denominator` (Python `//` is floor division,
`Int.fdiv` here); the negative branch obtains it via `divmod` and returns `q`
whether or not the remainder is zero. -/
def pyFloor (x : ℚ) : ℤ :=
  if 0 ≤ x then
    Int.fdiv x.num (x.den : ℤ)
  else
    let q := Int.fdiv x.num (x.den : ℤ)
    let r := Int.fmod x.num (x.den : ℤ)
    if r = 0 then q else q

/-- Embedding of `fraction_utils.fractional_part`: `x - floor(x)`. -/
def fractional_part (x : ℚ) : ℚ :=
  x - (pyFloor x : ℚ)

/-- Embedding of `fraction_utils.is_integer`:
`x.denominator == 1 or x.numerator % x.denominator == 0`. -/
def is_integer (x : ℚ) : Bool :=
  x.den = 1 || x.num % (x.den : ℤ) = 0

/-- `pyFloor` agrees with the mathematical floor. -/
lemma pyFloor_eq_floor (x : ℚ) : pyFloor x = ⌊x⌋ := by
  unfold pyFloor
  have hden : (0 : ℤ) < (x.den : ℤ) := by exact_mod_cast x.den_pos
  have h := Int.fdiv_eq_ediv x.num (le_of_lt hden)
  have hfl : ⌊x⌋ = x.num / (x.den : ℤ) := Rat.floor_def
  split <;> simp [h, hfl]

lemma fractional_part_eq_fract (x : ℚ) : fractional_part x = Int.fract x := by
  unfold fractional_part Int.fract
  rw [pyFloor_eq_floor]

/-! ## Tableau (`tableau.py`)

The constructor stores `matrix`, `b`, `c`, `basis` and derives
`c_b = [c[j] for j in basis]` and default variable names.  `var_names` and
`num_original_vars` are carried because the solver reads them
(`get_original_solution`, cut naming). -/

structure Tableau where
  matrix : List (List ℚ)
  b : List ℚ
  c : List ℚ
  basis : List ℕ
  c_b : List ℚ
  var_names : List String
  num_original_vars : ℕ
deriving Repr, DecidableEq

/-- Embedding of `Tableau.__init__` (the `var_names is None` default-name and
`num_original_vars` fallback branches included; `num_original_vars` is falsy in
Python exactly when it is `None` or `0`, both mapped to `none` here as the code
never passes `0`). -/
def Tableau.make (matrix : List (List ℚ)) (b : List ℚ) (c : List ℚ)
    (basis : List ℕ) (var_names : Option (List String) := none)
    (num_original_vars : Option ℕ := none) : Tableau :=
  { matrix := matrix
    b := b
    c := c
    basis := basis
    c_b := basis.map (fun j => c.getD j 0)
    var_names :=
      match var_names with
      | none => (List.range c.length).map (fun i => "x" ++ toString (i + 1))
      | some ns => ns
    num_original_vars :=
      match num_original_vars with
      | none => c.length
      | some n => n }

def Tableau.num_rows (t : Tableau) : ℕ := t.matrix.length

def Tableau.num_cols (t : Tableau) : ℕ := t.c.length

/-- `t.matrix[i][j]` with out-of-range reads defaulting to `0` (the Python code
only indexes in bounds on the tableaus it constructs). -/
def Tableau.entry (t : Tableau) (i j : ℕ) : ℚ :=
  (t.matrix.getD i []).getD j 0

/-- The objective value `z = Σ_i c_b[i] * b[i]` computed by `compute_z`. -/
def Tableau.z_value (t : Tableau) : ℚ :=
  (List.zipWith (· * ·) t.c_b t.b).sum

/-- The marginal cost `Zi[j] = Σ_i c_b[i] * matrix[i][j]` computed by
`compute_z` (the Python `for i in range(num_rows)` accumulation). -/
def Tableau.marginal (t : Tableau) (j : ℕ) : ℚ :=
  ((List.range t.num_rows).map (fun i => t.c_b.getD i 0 * t.entry i j)).sum

/-- Embedding of `Tableau.compute_reduced_costs`:
`[c[j] - zi[j] for j in range(num_cols)]`. -/
def Tableau.compute_reduced_costs (t : Tableau) : List ℚ :=
  (List.range t.num_cols).map (fun j => t.c.getD j 0 - t.marginal j)

/-- Embedding of `Tableau.get_original_solution`: start from a zero vector of
length `num_original_vars` and write `b[i]` at position `basis[i]` whenever
`basis[i] < num_original_vars`. -/
def Tableau.get_original_solution (t : Tableau) : List ℚ :=
  (t.basis.zip t.b).foldl
    (fun sol p => if p.1 < t.num_original_vars then sol.set p.1 p.2 else sol)
    (List.replicate t.num_original_vars 0)

/-- Embedding of `Tableau.pivot`.  The pivot row is divided by the pivot
element, every other row `i` is replaced by `row_i - factor * pivotRow` with
`factor = matrix[i][pivot_col]` read before the row update, and the same
update is applied to `b`; `basis[pivot_row] := pivot_col` and
`c_b[pivot_row] := c[pivot_col]`.  A zero pivot element raises `ValueError`,
modelled by `none`. -/
def Tableau.pivot (t : Tableau) (pivot_row pivot_col : ℕ) : Option Tableau :=
  let pivot_element := t.entry pivot_row pivot_col
  if pivot_element = 0 then
    none
  else
    some
      { matrix :=
          (List.range t.num_rows).map (fun i =>
            if i = pivot_row then
              (List.range t.num_cols).map (fun j => t.entry pivot_row j / pivot_element)
            else
              (List.range t.num_cols).map (fun j =>
                t.entry i j - t.entry i pivot_col * (t.entry pivot_row j / pivot_element)))
        b :=
          (List.range t.num_rows).map (fun i =>
            if i = pivot_row then
              t.b.getD pivot_row 0 / pivot_element
            else
              t.b.getD i 0 - t.entry i pivot_col * (t.b.getD pivot_row 0 / pivot_element))
        c := t.c
        basis := t.basis.set pivot_row pivot_col
        c_b := t.c_b.set pivot_row (t.c.getD pivot_col 0)
        var_names := t.var_names
        num_original_vars := t.num_original_vars }

/-- Embedding of `Tableau.add_constraint_row`: append the row to the matrix,
`rhs` to `b`, `basis_var_index` to the basis and `c[basis_var_index]` to
`c_b`. -/
def Tableau.add_constraint_row (t : Tableau) (row : List ℚ) (rhs : ℚ)
    (basis_var_index : ℕ) : Tableau :=
  { t with
    matrix := t.matrix ++ [row]
    b := t.b ++ [rhs]
    basis := t.basis ++ [basis_var_index]
    c_b := t.c_b ++ [t.c.getD basis_var_index 0] }

/-- Embedding of `Tableau.is_feasible`: all `b[i] ≥ 0`. -/
def Tableau.is_feasible (t : Tableau) : Bool :=
  t.b.all (fun bi => 0 ≤ bi)

/-- Embedding of `Tableau.is_optimal_primal`: all reduced costs `≤ 0`. -/
def Tableau.is_optimal_primal (t : Tableau) : Bool :=
  t.compute_reduced_costs.all (fun rc => rc ≤ 0)

/-- Embedding of `Tableau.has_integer_solution`: each index of `integer_vars`
that is within the original solution must hold an integral value. -/
def Tableau.has_integer_solution (t : Tableau) (integer_vars : List ℕ) : Bool :=
  let solution := t.get_original_solution
  integer_vars.all (fun idx =>
    if idx < solution.length then is_integer (solution.getD idx 0) else true)

/-! ## Problems (`problem.py`) -/

inductive Sense where
  | MAXIMIZE
  | MINIMIZE
deriving Repr, DecidableEq

inductive ConstraintType where
  | LEQ
  | GEQ
  | EQ
deriving Repr, DecidableEq

structure Constraint where
  coefficients : List ℚ
  constraint_type : ConstraintType
  rhs : ℚ
deriving Repr, DecidableEq

structure Problem where
  objective : List ℚ
  sense : Sense
  constraints : List Constraint
  integer_vars : List ℕ
  var_names : List String
deriving Repr, DecidableEq

def Problem.num_variables (p : Problem) : ℕ := p.objective.length

/-! ## Primal simplex (`simplex.py`) -/

inductive SimplexStatus where
  | OPTIMAL
  | UNBOUNDED
  | INFEASIBLE
  | MAX_ITERATIONS
deriving Repr, DecidableEq

/-- Embedding of `SimplexResult` (the observational `history` list of tableau
snapshots is omitted: no claim and no solver decision reads it). -/
structure SimplexResult where
  status : SimplexStatus
  tableau : Tableau
  objective_value : Option ℚ
  solution : Option (List ℚ)
  iterations : ℕ
deriving Repr, DecidableEq

/-- The per-constraint loop of `create_initial_tableau`: `slackIdx` is the
index of the next slack/surplus column.  A `≤` constraint receives `+1` at
`slackIdx`, a `≥` constraint `-1`; an equality constraint raises
`NotImplementedError` (modelled by `none`).  Returns the coefficient rows,
right-hand sides, basis indices and the generated slack variable names. -/
def buildConstraintRows (numSlack : ℕ) :
    List Constraint → ℕ → Option (List (List ℚ) × List ℚ × List ℕ × List String)
  | [], _ => some ([], [], [], [])
  | ctr :: rest, slackIdx =>
    if ctr.constraint_type = ConstraintType.EQ then
      none
    else
      let coef : ℚ := if ctr.constraint_type = ConstraintType.LEQ then 1 else -1
      let row := (ctr.coefficients ++ List.replicate numSlack 0).set slackIdx coef
      match buildConstraintRows numSlack rest (slackIdx + 1) with
      | none => none
      | some (m, bs, bas, names) =>
        some (row :: m, ctr.rhs :: bs, slackIdx :: bas,
          ("x" ++ toString (slackIdx + 1)) :: names)

/-- Embedding of `create_initial_tableau` (the local `n` and `num_slack` of
the Python function are inlined). -/
def create_initial_tableau (p : Problem) : Option Tableau :=
  match buildConstraintRows
      (p.constraints.countP (fun c =>
        c.constraint_type = ConstraintType.LEQ ∨
        c.constraint_type = ConstraintType.GEQ))
      p.constraints p.num_variables with
  | none => none
  | some (matrix, b, basis, slackNames) =>
    some (Tableau.make matrix b
      (p.objective ++ List.replicate
        (p.constraints.countP (fun c =>
          c.constraint_type = ConstraintType.LEQ ∨
          c.constraint_type = ConstraintType.GEQ)) 0)
      basis (some (p.var_names ++ slackNames)) (some p.num_variables))

/-- The scan of `find_entering_variable` over the reduced-cost list:
state `(maxRc, ent)` starts at `(0, None)` and is updated whenever
`rc > maxRc`; `j` is the index of the head element. -/
def findEnteringAux : List ℚ → ℚ → Option ℕ → ℕ → Option ℕ
  | [], _, ent, _ => ent
  | rc :: rest, maxRc, ent, j =>
    if maxRc < rc then findEnteringAux rest rc (some j) (j + 1)
    else findEnteringAux rest maxRc ent (j + 1)

/-- Embedding of `find_entering_variable` (Dantzig's rule). -/
def find_entering_variable (t : Tableau) : Option ℕ :=
  findEnteringAux t.compute_reduced_costs 0 none 0

/-- The scan of `find_leaving_variable` over rows `i, i+1, ...` (`fuel` rows
remain): rows with `matrix[i][entering] > 0` compete with ratio
`b[i] / matrix[i][entering]`, strict improvement only. -/
def findLeavingAux (t : Tableau) (entering : ℕ) :
    ℕ → ℕ → Option ℚ → Option ℕ → Option ℕ
  | _, 0, _, leaving => leaving
  | i, fuel + 1, minRatio, leaving =>
    let aij := t.entry i entering
    if 0 < aij then
      let ratio := t.b.getD i 0 / aij
      match minRatio with
      | none => findLeavingAux t entering (i + 1) fuel (some ratio) (some i)
      | some mr =>
        if ratio < mr then findLeavingAux t entering (i + 1) fuel (some ratio) (some i)
        else findLeavingAux t entering (i + 1) fuel (some mr) leaving
    else findLeavingAux t entering (i + 1) fuel minRatio leaving

/-- Embedding of `find_leaving_variable` (minimum-ratio rule). -/
def find_leaving_variable (t : Tableau) (entering : ℕ) : Option ℕ :=
  findLeavingAux t entering 0 t.num_rows none none

/-- The `while iteration < max_iterations` loop of `primal_simplex`; `fuel`
is the number of remaining iterations, `iteration` the count already done.
A `ValueError` escaping from `pivot` is `none` (unreachable in practice,
since the leaving row has a positive pivot entry). -/
def primalSimplexAux : Tableau → ℕ → ℕ → Option SimplexResult
  | t, iteration, 0 =>
    some ⟨SimplexStatus.MAX_ITERATIONS, t, none, none, iteration⟩
  | t, iteration, fuel + 1 =>
    if t.is_optimal_primal then
      some ⟨SimplexStatus.OPTIMAL, t, some t.z_value, some t.get_original_solution,
        iteration⟩
    else
      match find_entering_variable t with
      | none =>
        some ⟨SimplexStatus.OPTIMAL, t, some t.z_value, some t.get_original_solution,
          iteration⟩
      | some entering =>
        match find_leaving_variable t entering with
        | none => some ⟨SimplexStatus.UNBOUNDED, t, none, none, iteration⟩
        | some leaving =>
          match t.pivot leaving entering with
          | none => none
          | some t2 => primalSimplexAux t2 (iteration + 1) fuel

/-- Embedding of `primal_simplex` (the display callback is observational and
omitted). -/
def primal_simplex (t : Tableau) (max_iterations : ℕ) : Option SimplexResult :=
  primalSimplexAux t 0 max_iterations

/-! ## Dual simplex (`dual_simplex.py`) -/

/-- The scan of `find_leaving_variable_dual` over the right-hand sides
(`for i in range(num_rows)` reading `b[i]`; both lists have the row count as
length on every tableau the solver builds): strict improvement on the most
negative `b[i]`, starting from `min_b = 0`. -/
def findLeavingDualAux : List ℚ → ℚ → Option ℕ → ℕ → Option ℕ
  | [], _, leaving, _ => leaving
  | bi :: rest, minB, leaving, i =>
    if bi < minB then findLeavingDualAux rest bi (some i) (i + 1)
    else findLeavingDualAux rest minB leaving (i + 1)

/-- Embedding of `find_leaving_variable_dual`. -/
def find_leaving_variable_dual (t : Tableau) : Option ℕ :=
  findLeavingDualAux t.b 0 none 0

/-- The scan of `find_entering_variable_dual` over columns `j, j+1, ...`:
columns with `matrix[leavingRow][j] < 0` compete with ratio
`reducedCost[j] / matrix[leavingRow][j]`, kept only when the ratio is `≥ 0`,
strict improvement only. -/
def findEnteringDualAux (t : Tableau) (leavingRow : ℕ) (rcs : List ℚ) :
    ℕ → ℕ → Option ℚ → Option ℕ → Option ℕ
  | _, 0, _, entering => entering
  | j, fuel + 1, minRatio, entering =>
    let aij := t.entry leavingRow j
    if aij < 0 then
      let ratio := rcs.getD j 0 / aij
      if 0 ≤ ratio then
        match minRatio with
        | none => findEnteringDualAux t leavingRow rcs (j + 1) fuel (some ratio) (some j)
        | some mr =>
          if ratio < mr then
            findEnteringDualAux t leavingRow rcs (j + 1) fuel (some ratio) (some j)
          else findEnteringDualAux t leavingRow rcs (j + 1) fuel (some mr) entering
      else findEnteringDualAux t leavingRow rcs (j + 1) fuel minRatio entering
    else findEnteringDualAux t leavingRow rcs (j + 1) fuel minRatio entering

/-- Embedding of `find_entering_variable_dual`. -/
def find_entering_variable_dual (t : Tableau) (leavingRow : ℕ) : Option ℕ :=
  findEnteringDualAux t leavingRow t.compute_reduced_costs 0 t.num_cols none none

/-- The `while` loop of `dual_simplex`, with the same fuel discipline as the
primal loop. -/
def dualSimplexAux : Tableau → ℕ → ℕ → Option SimplexResult
  | t, iteration, 0 =>
    some ⟨SimplexStatus.MAX_ITERATIONS, t, none, none, iteration⟩
  | t, iteration, fuel + 1 =>
    if t.is_feasible then
      some ⟨SimplexStatus.OPTIMAL, t, some t.z_value, some t.get_original_solution,
        iteration⟩
    else
      match find_leaving_variable_dual t with
      | none =>
        some ⟨SimplexStatus.OPTIMAL, t, some t.z_value, some t.get_original_solution,
          iteration⟩
      | some leaving =>
        match find_entering_variable_dual t leaving with
        | none => some ⟨SimplexStatus.INFEASIBLE, t, none, none, iteration⟩
        | some entering =>
          match t.pivot leaving entering with
          | none => none
          | some t2 => dualSimplexAux t2 (iteration + 1) fuel

/-- Embedding of `dual_simplex`. -/
def dual_simplex (t : Tableau) (max_iterations : ℕ) : Option SimplexResult :=
  dualSimplexAux t 0 max_iterations

/-! ## Gomory cuts (`gomory_cut.py`) -/

structure GomoryCut where
  source_row : ℕ
  source_var : String
  coefficients : List ℚ
  rhs : ℚ
  fractional_parts : List ℚ
  fractional_rhs : ℚ
deriving Repr, DecidableEq

/-- The scan of `find_cut_row` over rows `i, i+1, ...`: rows whose basic
variable lies in `integer_vars` compete with the fractional part of `b[i]`,
kept only when it is `> 0` and strictly above the running maximum (which
starts at `0`). -/
def findCutRowAux (t : Tableau) (integer_vars : List ℕ) :
    ℕ → ℕ → ℚ → Option ℕ → Option ℕ
  | _, 0, _, best => best
  | i, fuel + 1, maxFrac, best =>
    let basisVar := t.basis.getD i 0
    if basisVar ∈ integer_vars then
      let fracPart := fractional_part (t.b.getD i 0)
      if 0 < fracPart ∧ maxFrac < fracPart then
        findCutRowAux t integer_vars (i + 1) fuel fracPart (some i)
      else findCutRowAux t integer_vars (i + 1) fuel maxFrac best
    else findCutRowAux t integer_vars (i + 1) fuel maxFrac best

/-- Embedding of `find_cut_row`. -/
def find_cut_row (t : Tableau) (integer_vars : List ℕ) : Option ℕ :=
  findCutRowAux t integer_vars 0 t.num_rows 0 none

/-- Embedding of `generate_gomory_cut`: fractional parts of the source row
and of its right-hand side, negated to give the appended `≤` form. -/
def generate_gomory_cut (t : Tableau) (source_row : ℕ) : GomoryCut :=
  let frac_b := fractional_part (t.b.getD source_row 0)
  let frac_coeffs :=
    (List.range t.num_cols).map (fun j => fractional_part (t.entry source_row j))
  { source_row := source_row
    source_var := t.var_names.getD (t.basis.getD source_row 0) ""
    coefficients := frac_coeffs.map (fun f => -f)
    rhs := -frac_b
    fractional_parts := frac_coeffs
    fractional_rhs := frac_b }

/-- Embedding of `add_cut_to_tableau`: a zero column (cost 0, fresh name) is
appended to every existing row, then the cut row `coefficients ++ [1]` with
right-hand side `cut.rhs` is appended and its slack becomes basic (basic
cost 0). -/
def add_cut_to_tableau (t : Tableau) (cut : GomoryCut) : Tableau :=
  let new_var_idx := t.num_cols
  { matrix := (t.matrix.map (fun row => row ++ [0])) ++ [cut.coefficients ++ [1]]
    b := t.b ++ [cut.rhs]
    c := t.c ++ [0]
    basis := t.basis ++ [new_var_idx]
    c_b := t.c_b ++ [0]
    var_names := t.var_names ++ ["x" ++ toString (new_var_idx + 1)]
    num_original_vars := t.num_original_vars }

/-! ## Solver orchestrator (`solver.py`) -/

inductive SolverStatus where
  | OPTIMAL_INTEGER
  | OPTIMAL_CONTINUOUS
  | UNBOUNDED
  | INFEASIBLE
  | MAX_ITERATIONS
  | MAX_CUTS
deriving Repr, DecidableEq

/-- Embedding of `SolverResult` (the observational `history` and
`solution_dict` fields are omitted; `total_iterations` counts the iteration
records the orchestrator appends: one for the initial tableau, one per primal
pivot, one per cut, one per dual pivot). -/
structure SolverResult where
  status : SolverStatus
  optimal_value : Option ℚ
  solution : Option (List ℚ)
  total_iterations : ℕ
  num_cuts : ℕ
  final_tableau : Option Tableau
deriving Repr, DecidableEq

/-- Embedding of `GomorySolver._convert_objective`. -/
def convert_objective (is_minimization : Bool) (z : ℚ) : ℚ :=
  if is_minimization then -z else z

/-- The `while num_cuts < self.max_cuts` loop of `GomorySolver.solve`;
`fuel = max_cuts - num_cuts` and `iterCount` is the running
`iteration_count`.  Note the faithful propagation of the solver bug family:
a dual-simplex `MAX_ITERATIONS` result is not checked, so the loop simply
continues on `dres.tableau`. -/
def solveCutLoop (isMin : Bool) (integer_vars : List ℕ) (numVars : ℕ)
    (maxIter : ℕ) : ℕ → Tableau → ℕ → ℕ → Option SolverResult
  | 0, t, numCuts, iterCount =>
    some
      { status := SolverStatus.MAX_CUTS
        optimal_value := some (convert_objective isMin t.z_value)
        solution := some (t.get_original_solution.take numVars)
        total_iterations := iterCount
        num_cuts := numCuts
        final_tableau := some t }
  | fuel + 1, t, numCuts, iterCount =>
    if t.has_integer_solution integer_vars then
      some
        { status := SolverStatus.OPTIMAL_INTEGER
          optimal_value := some (convert_objective isMin t.z_value)
          solution := some (t.get_original_solution.take numVars)
          total_iterations := iterCount
          num_cuts := numCuts
          final_tableau := some t }
    else
      match find_cut_row t integer_vars with
      | none =>
        some
          { status := SolverStatus.OPTIMAL_INTEGER
            optimal_value := some (convert_objective isMin t.z_value)
            solution := some (t.get_original_solution.take numVars)
            total_iterations := iterCount
            num_cuts := numCuts
            final_tableau := some t }
      | some cutRow =>
        let cut := generate_gomory_cut t cutRow
        let t1 := add_cut_to_tableau t cut
        match dual_simplex t1 maxIter with
        | none => none
        | some dres =>
          if dres.status = SimplexStatus.INFEASIBLE then
            some
              { status := SolverStatus.INFEASIBLE
                optimal_value := none
                solution := none
                total_iterations := iterCount + 1 + dres.iterations
                num_cuts := numCuts + 1
                final_tableau := none }
          else
            solveCutLoop isMin integer_vars numVars maxIter fuel dres.tableau
              (numCuts + 1) (iterCount + 1 + dres.iterations)

/-- Embedding of `GomorySolver.solve` with the given `max_iterations` and
`max_cuts` caps.  A minimization problem is first converted to a
maximization by negating the objective coefficients; afterwards the primal
relaxation runs, then the cutting-plane loop. -/
def solve (p : Problem) (maxIter maxCuts : ℕ) : Option SolverResult :=
  let isMin := p.sense = Sense.MINIMIZE
  let working :=
    if isMin then
      { p with objective := p.objective.map (fun c => -c), sense := Sense.MAXIMIZE }
    else p
  match create_initial_tableau working with
  | none => none
  | some t0 =>
    match primal_simplex t0 maxIter with
    | none => none
    | some res =>
      let iterCount := 1 + res.iterations
      if res.status = SimplexStatus.UNBOUNDED then
        some
          { status := SolverStatus.UNBOUNDED
            optimal_value := none
            solution := none
            total_iterations := iterCount
            num_cuts := 0
            final_tableau := none }
      else if res.status ≠ SimplexStatus.OPTIMAL then
        some
          { status := SolverStatus.INFEASIBLE
            optimal_value := none
            solution := none
            total_iterations := iterCount
            num_cuts := 0
            final_tableau := none }
      else if p.integer_vars = [] then
        some
          { status := SolverStatus.OPTIMAL_CONTINUOUS
            optimal_value := res.objective_value.map (convert_objective isMin)
            solution := res.solution
            total_iterations := iterCount
            num_cuts := 0
            final_tableau := some res.tableau }
      else
        solveCutLoop isMin p.integer_vars p.num_variables maxIter maxCuts
          res.tableau 0 iterCount

/-! ## List access helper lemmas -/

lemma getD_range_map {α : Type} (f : ℕ → α) {n i : ℕ} (h : i < n) (d : α) :
    ((List.range n).map f).getD i d = f i := by
  rw [List.getD_eq_getElem _ _ (by simpa using h)]
  simp

lemma getD_append_sing {α : Type} (l : List α) (x d : α) :
    (l ++ [x]).getD l.length d = x := by
  rw [List.getD_append_right _ _ _ _ (le_refl _)]
  simp

lemma getD_append_self_default {α : Type} (l : List α) (j : ℕ) (d : α) :
    (l ++ [d]).getD j d = l.getD j d := by
  rcases lt_or_ge j l.length with h | h
  · exact List.getD_append _ _ _ _ h
  · rw [List.getD_append_right _ _ _ _ h, List.getD_eq_default _ _ h]
    rcases Nat.eq_or_lt_of_le h with h' | h'
    · simp [← h']
    · rw [List.getD_eq_default]
      simp only [List.length_cons, List.length_nil]
      omega

lemma getD_set_self {α : Type} (l : List α) (i : ℕ) (a d : α) (h : i < l.length) :
    (l.set i a).getD i d = a := by
  rw [List.getD_eq_getElem _ _ (by simpa using h)]
  simp [List.getElem_set_self]

/-! ## Claim theorems -/

/-- **C5**: for every rational `x`, `floor(x)` is the largest integer `≤ x`
(rounding toward negative infinity for negative `x`), and `fractional_part x`
satisfies `0 ≤ fractional_part x < 1` and `fractional_part x = x - floor x`
exactly. -/
theorem floor_fractional_part_spec (x : ℚ) :
    ((pyFloor x : ℚ) ≤ x ∧ ∀ z : ℤ, (z : ℚ) ≤ x → z ≤ pyFloor x) ∧
    0 ≤ fractional_part x ∧ fractional_part x < 1 ∧
    fractional_part x = x - (pyFloor x : ℚ) := by
  rw [pyFloor_eq_floor, fractional_part_eq_fract]
  refine ⟨⟨Int.floor_le x, fun z hz => Int.le_floor.mpr hz⟩,
    Int.fract_nonneg x, Int.fract_lt_one x, ?_⟩
  rw [Int.self_sub_floor]

/-- **C4**: for every tableau and every row `r` and column `c` of it with
`matrix[r][c] ≠ 0`, `pivot(r, c)` succeeds and the resulting tableau has
`matrix[r][c] == 1`, `matrix[i][c] == 0` for every other row `i`,
`basis[r] == c`, and basic cost `c_b[r] == objective[c]`. -/
theorem pivot_spec (t : Tableau) (r c : ℕ)
    (hp : t.entry r c ≠ 0) (hr : r < t.num_rows) (hc : c < t.num_cols)
    (hbl : t.basis.length = t.num_rows) (hcbl : t.c_b.length = t.num_rows) :
    ∃ t', t.pivot r c = some t' ∧
      t'.entry r c = 1 ∧
      (∀ i < t.num_rows, i ≠ r → t'.entry i c = 0) ∧
      t'.basis.getD r 0 = c ∧
      t'.c_b.getD r 0 = t.c.getD c 0 := by
  rw [Tableau.pivot]
  simp only [if_neg hp]
  refine ⟨_, rfl, ?_, ?_, ?_, ?_⟩
  · show ((((List.range t.num_rows).map _).getD r []).getD c 0 : ℚ) = 1
    rw [getD_range_map _ hr, if_pos rfl, getD_range_map _ hc, div_self hp]
  · intro i hi hir
    show ((((List.range t.num_rows).map _).getD i []).getD c 0 : ℚ) = 0
    rw [getD_range_map _ hi, if_neg hir, getD_range_map _ hc, div_self hp,
      mul_one, sub_self]
  · exact getD_set_self _ _ _ _ (by rw [hbl]; exact hr)
  · exact getD_set_self _ _ _ _ (by rw [hcbl]; exact hr)

/-- A small concrete tableau used by the witnesses. -/
def sampleTableau : Tableau :=
  Tableau.make [[2, 1], [1, 3]] [4, 5] [3, 2] [0, 1]

theorem pivot_spec_witness :
    (sampleTableau.entry 0 0 ≠ 0 ∧ 0 < sampleTableau.num_rows ∧
      0 < sampleTableau.num_cols ∧
      sampleTableau.basis.length = sampleTableau.num_rows ∧
      sampleTableau.c_b.length = sampleTableau.num_rows) ∧
    ∃ t', sampleTableau.pivot 0 0 = some t' ∧
      t'.entry 0 0 = 1 ∧
      (∀ i < sampleTableau.num_rows, i ≠ 0 → t'.entry i 0 = 0) ∧
      t'.basis.getD 0 0 = 0 ∧
      t'.c_b.getD 0 0 = sampleTableau.c.getD 0 0 := by
  have h1 : sampleTableau.entry 0 0 ≠ 0 := by
    norm_num [sampleTableau, Tableau.entry, Tableau.make]
  have h2 : (0 : ℕ) < sampleTableau.num_rows := by
    norm_num [sampleTableau, Tableau.num_rows, Tableau.make]
  have h3 : (0 : ℕ) < sampleTableau.num_cols := by
    norm_num [sampleTableau, Tableau.num_cols, Tableau.make]
  have h4 : sampleTableau.basis.length = sampleTableau.num_rows := by
    norm_num [sampleTableau, Tableau.num_rows, Tableau.make]
  have h5 : sampleTableau.c_b.length = sampleTableau.num_rows := by
    norm_num [sampleTableau, Tableau.num_rows, Tableau.make]
  exact ⟨⟨h1, h2, h3, h4, h5⟩, pivot_spec sampleTableau 0 0 h1 h2 h3 h4 h5⟩

lemma fractional_part_nonneg (x : ℚ) : 0 ≤ fractional_part x := by
  rw [fractional_part_eq_fract]; exact Int.fract_nonneg x

lemma fractional_part_lt_one (x : ℚ) : fractional_part x < 1 := by
  rw [fractional_part_eq_fract]; exact Int.fract_lt_one x

/-- **C2**: for every tableau `t` whose rows, right-hand sides and basic costs
have the tableau's dimensions, and every row `r` whose right-hand side has a
nonzero fractional part, `addCut(t, generateCut(t, r))` has a strictly
negative right-hand side in the appended row (index `t.num_rows`), and the
reduced cost of the newly appended basic column (index `t.num_cols`) is `≤ 0`,
so dual feasibility of the new column is preserved. -/
theorem add_cut_spec (t : Tableau) (r : ℕ)
    (hrows : ∀ row ∈ t.matrix, row.length = t.num_cols)
    (hbl : t.b.length = t.num_rows)
    (hcbl : t.c_b.length = t.num_rows)
    (hfrac : fractional_part (t.b.getD r 0) ≠ 0) :
    (add_cut_to_tableau t (generate_gomory_cut t r)).b.getD t.num_rows 0 < 0 ∧
    (add_cut_to_tableau t (generate_gomory_cut t r)).compute_reduced_costs.getD
      t.num_cols 0 ≤ 0 := by
  have hfpos : 0 < fractional_part (t.b.getD r 0) :=
    lt_of_le_of_ne (fractional_part_nonneg _) (Ne.symm hfrac)
  constructor
  · show (t.b ++ [(generate_gomory_cut t r).rhs]).getD t.num_rows 0 < 0
    rw [← hbl, getD_append_sing]
    show -fractional_part (t.b.getD r 0) < 0
    simpa using hfpos
  · have hlen : t.num_cols < (add_cut_to_tableau t (generate_gomory_cut t r)).num_cols := by
      show t.num_cols < (t.c ++ [0]).length
      simp [Tableau.num_cols]
    rw [Tableau.compute_reduced_costs, getD_range_map _ hlen]
    have hc0 : (add_cut_to_tableau t (generate_gomory_cut t r)).c.getD t.num_cols 0 = 0 := by
      show (t.c ++ [(0 : ℚ)]).getD t.num_cols 0 = 0
      exact getD_append_sing t.c 0 0
    have hm0 : (add_cut_to_tableau t (generate_gomory_cut t r)).marginal t.num_cols = 0 := by
      rw [Tableau.marginal]
      apply List.sum_eq_zero
      intro x hx
      rcases List.mem_map.mp hx with ⟨i, hi, hxi⟩
      rw [List.mem_range] at hi
      subst hxi
      have hrowslen :
          (add_cut_to_tableau t (generate_gomory_cut t r)).num_rows
            = t.matrix.length + 1 := by
        show ((t.matrix.map _) ++ [_]).length = t.matrix.length + 1
        simp
      rw [hrowslen] at hi
      rcases Nat.lt_succ_iff_lt_or_eq.mp hi with hi' | hi'
      · -- an existing row: its appended column entry is 0
        have hentry :
            (add_cut_to_tableau t (generate_gomory_cut t r)).entry i t.num_cols = 0 := by
          have hmaplen : i < (t.matrix.map (fun row => row ++ [(0 : ℚ)])).length := by
            simpa using hi'
          show ((((t.matrix.map (fun row => row ++ [0])) ++ [_]).getD i []).getD
            t.num_cols 0 : ℚ) = 0
          rw [List.getD_append (t.matrix.map (fun row => row ++ [0])) _ [] i hmaplen,
            List.getD_eq_getElem (t.matrix.map (fun row => row ++ [0])) [] hmaplen,
            List.getElem_map]
          have hrl : (t.matrix[i]).length = t.num_cols :=
            hrows _ (List.getElem_mem hi')
          rw [← hrl]
          exact getD_append_sing _ _ _
        rw [hentry, mul_zero]
      · -- the appended cut row: its basic cost is 0
        have hcb :
            (add_cut_to_tableau t (generate_gomory_cut t r)).c_b.getD i 0 = 0 := by
          show (t.c_b ++ [(0 : ℚ)]).getD i 0 = 0
          have hcl : t.c_b.length = t.matrix.length := hcbl
          rw [hi', ← hcl, getD_append_sing]
        rw [hcb, zero_mul]
    rw [hc0, hm0]
    norm_num

/-- A concrete tableau with fractional right-hand side `7/2`, used by the
cut witnesses. -/
def fracTableau : Tableau :=
  Tableau.make [[1, 2]] [7 / 2] [1, 0] [0]

theorem add_cut_spec_witness :
    ((∀ row ∈ fracTableau.matrix, row.length = fracTableau.num_cols) ∧
      fracTableau.b.length = fracTableau.num_rows ∧
      fracTableau.c_b.length = fracTableau.num_rows ∧
      fractional_part (fracTableau.b.getD 0 0) ≠ 0) ∧
    (add_cut_to_tableau fracTableau (generate_gomory_cut fracTableau 0)).b.getD
      fracTableau.num_rows 0 < 0 ∧
    (add_cut_to_tableau fracTableau
        (generate_gomory_cut fracTableau 0)).compute_reduced_costs.getD
      fracTableau.num_cols 0 ≤ 0 := by
  have h1 : ∀ row ∈ fracTableau.matrix, row.length = fracTableau.num_cols := by
    intro row hrow
    simp only [fracTableau, Tableau.make, List.mem_singleton] at hrow
    simp [hrow, fracTableau, Tableau.make, Tableau.num_cols]
  have h2 : fracTableau.b.length = fracTableau.num_rows := rfl
  have h3 : fracTableau.c_b.length = fracTableau.num_rows := rfl
  have h4 : fractional_part (fracTableau.b.getD 0 0) ≠ 0 := by
    have hb : fracTableau.b.getD 0 0 = 7 / 2 := rfl
    rw [hb, fractional_part_eq_fract, Int.fract]
    norm_num
  exact ⟨⟨h1, h2, h3, h4⟩, add_cut_spec fracTableau 0 h1 h2 h3 h4⟩

/-- Tableaus reachable from the constructor via the transformations the
solver applies: `pivot`, `add_constraint_row` and the cut append. -/
inductive Reachable : Tableau → Prop where
  | init (matrix : List (List ℚ)) (b c : List ℚ) (basis : List ℕ)
      (var_names : Option (List String)) (nov : Option ℕ) :
      Reachable (Tableau.make matrix b c basis var_names nov)
  | pivot_step (t t' : Tableau) (r c : ℕ) :
      Reachable t → t.pivot r c = some t' → Reachable t'
  | add_row (t : Tableau) (row : List ℚ) (rhs : ℚ) (idx : ℕ) :
      Reachable t → Reachable (t.add_constraint_row row rhs idx)
  | add_cut (t : Tableau) (cut : GomoryCut) :
      Reachable t → Reachable (add_cut_to_tableau t cut)

lemma reachable_cb_eq (t : Tableau) (h : Reachable t) :
    t.c_b = t.basis.map (fun j => t.c.getD j 0) := by
  induction h with
  | init matrix b c basis var_names nov => rfl
  | pivot_step t t' r c ht hpiv ih =>
    by_cases hp : t.entry r c = 0
    · rw [Tableau.pivot, if_pos hp] at hpiv
      exact absurd hpiv (by simp)
    · rw [Tableau.pivot, if_neg hp, Option.some_inj] at hpiv
      subst hpiv
      show t.c_b.set r (t.c.getD c 0) = (t.basis.set r c).map (fun j => t.c.getD j 0)
      rw [List.map_set, ← ih]
  | add_row t row rhs idx ht ih =>
    show t.c_b ++ [t.c.getD idx 0]
      = (t.basis ++ [idx]).map (fun j => t.c.getD j 0)
    rw [List.map_append, ← ih]
    rfl
  | add_cut t cut ht ih =>
    simp only [add_cut_to_tableau, List.map_append]
    have h1 : t.basis.map (fun j => (t.c ++ [0]).getD j 0)
        = t.basis.map (fun j => t.c.getD j 0) := by
      apply List.map_congr_left
      intro a _
      exact getD_append_self_default t.c a 0
    have h2 : ([t.num_cols]).map (fun j => (t.c ++ [0]).getD j 0) = [(0 : ℚ)] := by
      simp only [List.map_cons, List.map_nil]
      rw [show t.num_cols = t.c.length from rfl, getD_append_sing]
    rw [h1, h2, ← ih]

/-- **C10**: every tableau reachable from the constructor via `pivot`,
`add_constraint_row` or the cut append satisfies `c_b[i] == c[basis[i]]` for
every row `i`: the stored basic-cost vector agrees with the objective
coefficient of the row's basic column. -/
theorem basic_cost_invariant (t : Tableau) (h : Reachable t) :
    t.c_b.length = t.basis.length ∧
    ∀ i < t.basis.length, t.c_b.getD i 0 = t.c.getD (t.basis.getD i 0) 0 := by
  have hmain := reachable_cb_eq t h
  constructor
  · rw [hmain, List.length_map]
  · intro i hi
    rw [hmain, List.getD_eq_getElem _ _ (by simpa using hi), List.getElem_map]
    congr 1
    rw [List.getD_eq_getElem _ _ hi]

theorem basic_cost_invariant_witness :
    Reachable sampleTableau ∧
    (sampleTableau.c_b.length = sampleTableau.basis.length ∧
      ∀ i < sampleTableau.basis.length,
        sampleTableau.c_b.getD i 0
          = sampleTableau.c.getD (sampleTableau.basis.getD i 0) 0) := by
  have hreach : Reachable sampleTableau := Reachable.init [[2, 1], [1, 3]] [4, 5] [3, 2] [0, 1] none none
  exact ⟨hreach, basic_cost_invariant sampleTableau hreach⟩

lemma buildRows_none_iff (numSlack : ℕ) : ∀ (ctrs : List Constraint) (slackIdx : ℕ),
    buildConstraintRows numSlack ctrs slackIdx = none
      ↔ ∃ c ∈ ctrs, c.constraint_type = ConstraintType.EQ := by
  intro ctrs
  induction ctrs with
  | nil => intro slackIdx; simp [buildConstraintRows]
  | cons ctr rest ih =>
    intro slackIdx
    by_cases heq : ctr.constraint_type = ConstraintType.EQ
    · simp only [buildConstraintRows, if_pos heq]
      simp [heq]
    · simp only [buildConstraintRows, if_neg heq]
      cases hrec : buildConstraintRows numSlack rest (slackIdx + 1) with
      | none =>
        have hex := (ih (slackIdx + 1)).mp hrec
        constructor
        · intro _
          rcases hex with ⟨c, hc, hct⟩
          exact ⟨c, List.mem_cons_of_mem _ hc, hct⟩
        · intro _
          rfl
      | some v =>
        obtain ⟨m', b', bas', names'⟩ := v
        have hnex := (ih (slackIdx + 1)).not.mp (by simp [hrec])
        constructor
        · intro h
          exact absurd h (by simp)
        · rintro ⟨c, hc, hct⟩
          rcases List.mem_cons.mp hc with hc' | hc'
          · exact absurd hct (hc' ▸ heq)
          · exact absurd ⟨c, hc', hct⟩ hnex

lemma buildRows_some_spec (numSlack : ℕ) : ∀ (ctrs : List Constraint) (slackIdx : ℕ)
    (matrix : List (List ℚ)) (b : List ℚ) (basis : List ℕ) (names : List String),
    buildConstraintRows numSlack ctrs slackIdx = some (matrix, b, basis, names) →
    matrix.length = ctrs.length ∧ basis.length = ctrs.length ∧
    ∀ i (hi : i < ctrs.length),
      basis.getD i 0 = slackIdx + i ∧
      matrix.getD i []
        = ((ctrs[i]).coefficients ++ List.replicate numSlack 0).set (slackIdx + i)
            (if (ctrs[i]).constraint_type = ConstraintType.LEQ then 1 else -1) := by
  intro ctrs
  induction ctrs with
  | nil =>
    intro slackIdx matrix b basis names h
    simp only [buildConstraintRows, Option.some_inj, Prod.mk.injEq] at h
    obtain ⟨h1, h2, h3, h4⟩ := h
    subst h1 h3
    refine ⟨rfl, rfl, ?_⟩
    intro i hi
    exact absurd hi (by simp)
  | cons ctr rest ih =>
    intro slackIdx matrix b basis names h
    simp only [buildConstraintRows] at h
    by_cases heq : ctr.constraint_type = ConstraintType.EQ
    · rw [if_pos heq] at h; exact absurd h (by simp)
    · rw [if_neg heq] at h
      cases hrec : buildConstraintRows numSlack rest (slackIdx + 1) with
      | none => rw [hrec] at h; exact absurd h (by simp)
      | some v =>
        rw [hrec] at h
        obtain ⟨m', b', bas', names'⟩ := v
        simp only [Option.some_inj, Prod.mk.injEq] at h
        obtain ⟨hm, hb, hbas, hnames⟩ := h
        obtain ⟨ihlen, ihbas, ihrows⟩ := ih (slackIdx + 1) m' b' bas' names' hrec
        subst hm hbas
        refine ⟨by simp [ihlen], by simp [ihbas], ?_⟩
        intro i hi
        cases i with
        | zero => simp
        | succ i =>
          have hi' : i < rest.length := by simpa using hi
          have := ihrows i hi'
          simp only [List.getD_cons_succ, List.getElem_cons_succ]
          refine ⟨by rw [this.1]; omega, ?_⟩
          rw [this.2]
          congr 1
          omega

/-- **C8**: for every problem (with well-sized constraint rows) containing an
equality constraint, the initial-tableau builder fails; for every problem
whose constraints are all `≤` or `≥` it succeeds, giving constraint row `i`
the slack/surplus column `n + i` with coefficient `+1` for `≤` and `-1` for
`≥`, that column becoming the row's initial basic variable. -/
theorem initial_tableau_spec (p : Problem)
    (hlen : ∀ c ∈ p.constraints, c.coefficients.length = p.num_variables) :
    (create_initial_tableau p = none ↔
      ∃ c ∈ p.constraints, c.constraint_type = ConstraintType.EQ) ∧
    ∀ t, create_initial_tableau p = some t →
      ∀ i (hi : i < p.constraints.length),
        t.basis.getD i 0 = p.num_variables + i ∧
        t.entry i (p.num_variables + i)
          = (if (p.constraints[i]).constraint_type = ConstraintType.LEQ
              then (1 : ℚ) else -1) := by
  constructor
  · rw [create_initial_tableau]
    cases hrec : buildConstraintRows
        (p.constraints.countP (fun c =>
          c.constraint_type = ConstraintType.LEQ ∨
          c.constraint_type = ConstraintType.GEQ))
        p.constraints p.num_variables with
    | none =>
      exact iff_of_true rfl ((buildRows_none_iff _ _ _).mp hrec)
    | some v =>
      obtain ⟨matrix, b, basis, names⟩ := v
      refine iff_of_false (by simp) ?_
      intro hex
      have hne := (buildRows_none_iff
        (p.constraints.countP (fun c =>
          c.constraint_type = ConstraintType.LEQ ∨
          c.constraint_type = ConstraintType.GEQ))
        p.constraints p.num_variables).mpr hex
      rw [hrec] at hne
      exact absurd hne (by simp)
  · intro t ht i hi
    rw [create_initial_tableau] at ht
    cases hrec : buildConstraintRows
        (p.constraints.countP (fun c =>
          c.constraint_type = ConstraintType.LEQ ∨
          c.constraint_type = ConstraintType.GEQ))
        p.constraints p.num_variables with
    | none =>
      rw [hrec] at ht
      exact absurd ht (by simp)
    | some v =>
      obtain ⟨matrix, b, basis, names⟩ := v
      rw [hrec] at ht
      simp only [Option.some_inj] at ht
      subst ht
      obtain ⟨hmlen, hblen, hrows⟩ :=
        buildRows_some_spec _ p.constraints p.num_variables matrix b basis names hrec
      have hnoEQ : ∀ c ∈ p.constraints, ¬c.constraint_type = ConstraintType.EQ := by
        intro c hc hct
        have hne := (buildRows_none_iff
          (p.constraints.countP (fun c =>
            c.constraint_type = ConstraintType.LEQ ∨
            c.constraint_type = ConstraintType.GEQ))
          p.constraints p.num_variables).mpr ⟨c, hc, hct⟩
        rw [hrec] at hne
        exact absurd hne (by simp)
      have hcount : p.constraints.countP (fun c =>
          c.constraint_type = ConstraintType.LEQ ∨
          c.constraint_type = ConstraintType.GEQ) = p.constraints.length := by
        rw [List.countP_eq_length]
        intro c hc
        cases hct : c.constraint_type with
        | LEQ => simp [hct]
        | GEQ => simp [hct]
        | EQ => exact absurd hct (hnoEQ c hc)
      refine ⟨(hrows i hi).1, ?_⟩
      show (matrix.getD i []).getD (p.num_variables + i) 0 = _
      rw [(hrows i hi).2]
      have hrowlen :
          ((p.constraints[i]).coefficients
            ++ List.replicate (p.constraints.countP (fun c =>
                c.constraint_type = ConstraintType.LEQ ∨
                c.constraint_type = ConstraintType.GEQ)) (0 : ℚ)).length
          = p.num_variables + p.constraints.length := by
        rw [List.length_append, List.length_replicate,
          hlen _ (List.getElem_mem hi), hcount]
      exact getD_set_self _ _ _ _ (by rw [hrowlen]; omega)

/-- A small concrete problem (one `≤` and one `≥` constraint) for the
initial-tableau witness. -/
def sampleProblem : Problem :=
  { objective := [1, 2]
    sense := Sense.MAXIMIZE
    constraints := [⟨[1, 0], ConstraintType.LEQ, 3⟩, ⟨[0, 1], ConstraintType.GEQ, 1⟩]
    integer_vars := []
    var_names := ["x1", "x2"] }

theorem initial_tableau_spec_witness :
    (∀ c ∈ sampleProblem.constraints,
      c.coefficients.length = sampleProblem.num_variables) ∧
    ((create_initial_tableau sampleProblem = none ↔
      ∃ c ∈ sampleProblem.constraints, c.constraint_type = ConstraintType.EQ) ∧
    ∀ t, create_initial_tableau sampleProblem = some t →
      ∀ i (hi : i < sampleProblem.constraints.length),
        t.basis.getD i 0 = sampleProblem.num_variables + i ∧
        t.entry i (sampleProblem.num_variables + i)
          = (if (sampleProblem.constraints[i]).constraint_type = ConstraintType.LEQ
              then (1 : ℚ) else -1)) := by
  have hlen : ∀ c ∈ sampleProblem.constraints,
      c.coefficients.length = sampleProblem.num_variables := by
    intro c hc
    simp only [sampleProblem, List.mem_cons, List.mem_singleton,
      List.not_mem_nil, or_false] at hc
    rcases hc with rfl | rfl <;> rfl
  exact ⟨hlen, initial_tableau_spec sampleProblem hlen⟩

/-- Loop invariant of the `find_cut_row` scan after the rows `k < i` have been
examined with running state `(maxFrac, best)`. -/
def CutInv (t : Tableau) (iv : List ℕ) (i : ℕ) (maxFrac : ℚ) (best : Option ℕ) : Prop :=
  0 ≤ maxFrac ∧
  ((best = none ∧ maxFrac = 0 ∧
      ∀ k < i, t.basis.getD k 0 ∈ iv → fractional_part (t.b.getD k 0) = 0) ∨
   (∃ im, best = some im ∧ im < i ∧ t.basis.getD im 0 ∈ iv ∧
      fractional_part (t.b.getD im 0) = maxFrac ∧ 0 < maxFrac ∧
      (∀ k < im, t.basis.getD k 0 ∈ iv → fractional_part (t.b.getD k 0) < maxFrac) ∧
      (∀ k < i, t.basis.getD k 0 ∈ iv → fractional_part (t.b.getD k 0) ≤ maxFrac)))

lemma findCutRowAux_inv (t : Tableau) (iv : List ℕ) :
    ∀ (fuel i : ℕ) (maxFrac : ℚ) (best : Option ℕ),
      CutInv t iv i maxFrac best →
      ∃ m, CutInv t iv (i + fuel) m (findCutRowAux t iv i fuel maxFrac best) := by
  intro fuel
  induction fuel with
  | zero =>
    intro i maxFrac best h
    exact ⟨maxFrac, by simpa using h⟩
  | succ fuel ih =>
    intro i maxFrac best h
    obtain ⟨hnn, hdisj⟩ := h
    have hfpnn := fractional_part_nonneg (t.b.getD i 0)
    have hstep : i + (fuel + 1) = (i + 1) + fuel := by omega
    rw [hstep]
    by_cases hmem : t.basis.getD i 0 ∈ iv
    · by_cases hcond : 0 < fractional_part (t.b.getD i 0) ∧
          maxFrac < fractional_part (t.b.getD i 0)
      · have hunf : findCutRowAux t iv i (fuel + 1) maxFrac best
            = findCutRowAux t iv (i + 1) fuel (fractional_part (t.b.getD i 0)) (some i) := by
          simp only [findCutRowAux, if_pos hmem, if_pos hcond]
        rw [hunf]
        apply ih
        refine ⟨le_of_lt hcond.1, Or.inr ⟨i, rfl, Nat.lt_succ_self i, hmem, rfl, hcond.1,
          ?_, ?_⟩⟩
        · intro k hk hkmem
          rcases hdisj with ⟨_, hmz, hall⟩ | ⟨im, _, him, _, hfim, hpos, _, hle⟩
          · rw [hall k hk hkmem]; exact hcond.1
          · exact lt_of_le_of_lt (hle k hk hkmem) hcond.2
        · intro k hk hkmem
          rcases Nat.lt_succ_iff_lt_or_eq.mp hk with hk' | hk'
          · rcases hdisj with ⟨_, hmz, hall⟩ | ⟨im, _, him, _, hfim, hpos, _, hle⟩
            · rw [hall k hk' hkmem]; exact le_of_lt hcond.1
            · exact le_of_lt (lt_of_le_of_lt (hle k hk' hkmem) hcond.2)
          · subst hk'; exact le_refl _
      · have hunf : findCutRowAux t iv i (fuel + 1) maxFrac best
            = findCutRowAux t iv (i + 1) fuel maxFrac best := by
          simp only [findCutRowAux, if_pos hmem, if_neg hcond]
        rw [hunf]
        apply ih
        have hile : fractional_part (t.b.getD i 0) ≤ maxFrac := by
          rcases not_and_or.mp hcond with hc | hc
          · have : fractional_part (t.b.getD i 0) = 0 := le_antisymm (not_lt.mp hc) hfpnn
            rw [this]; exact hnn
          · exact not_lt.mp hc
        refine ⟨hnn, ?_⟩
        rcases hdisj with ⟨hbn, hmz, hall⟩ | ⟨im, hbs, him, himem, hfim, hpos, hlt, hle⟩
        · refine Or.inl ⟨hbn, hmz, ?_⟩
          intro k hk hkmem
          rcases Nat.lt_succ_iff_lt_or_eq.mp hk with hk' | hk'
          · exact hall k hk' hkmem
          · subst hk'
            exact le_antisymm (hmz ▸ hile) hfpnn
        · refine Or.inr ⟨im, hbs, Nat.lt_succ_of_lt him, himem, hfim, hpos, hlt, ?_⟩
          intro k hk hkmem
          rcases Nat.lt_succ_iff_lt_or_eq.mp hk with hk' | hk'
          · exact hle k hk' hkmem
          · subst hk'; exact hile
    · have hunf : findCutRowAux t iv i (fuel + 1) maxFrac best
          = findCutRowAux t iv (i + 1) fuel maxFrac best := by
        simp only [findCutRowAux, if_neg hmem]
      rw [hunf]
      apply ih
      refine ⟨hnn, ?_⟩
      rcases hdisj with ⟨hbn, hmz, hall⟩ | ⟨im, hbs, him, himem, hfim, hpos, hlt, hle⟩
      · refine Or.inl ⟨hbn, hmz, ?_⟩
        intro k hk hkmem
        rcases Nat.lt_succ_iff_lt_or_eq.mp hk with hk' | hk'
        · exact hall k hk' hkmem
        · subst hk'; exact absurd hkmem hmem
      · refine Or.inr ⟨im, hbs, Nat.lt_succ_of_lt him, himem, hfim, hpos, hlt, ?_⟩
        intro k hk hkmem
        rcases Nat.lt_succ_iff_lt_or_eq.mp hk with hk' | hk'
        · exact hle k hk' hkmem
        · subst hk'; exact absurd hkmem hmem

/-- **C6**: `findCutRow` never returns a row whose basic column is outside the
required-integer set; when it returns a row, that row is the first one
attaining the strictly largest nonzero fractional part of the right-hand side
among rows whose basic column is required-integer; and it returns none exactly
when no such row has a nonzero fractional part. -/
theorem find_cut_row_spec (t : Tableau) (integer_vars : List ℕ) :
    (∀ i, find_cut_row t integer_vars = some i →
        t.basis.getD i 0 ∈ integer_vars ∧ i < t.num_rows ∧
        0 < fractional_part (t.b.getD i 0) ∧
        (∀ k < i, t.basis.getD k 0 ∈ integer_vars →
          fractional_part (t.b.getD k 0) < fractional_part (t.b.getD i 0)) ∧
        (∀ k < t.num_rows, t.basis.getD k 0 ∈ integer_vars →
          fractional_part (t.b.getD k 0) ≤ fractional_part (t.b.getD i 0))) ∧
    (find_cut_row t integer_vars = none ↔
      ∀ k < t.num_rows, t.basis.getD k 0 ∈ integer_vars →
        fractional_part (t.b.getD k 0) = 0) := by
  have hinv0 : CutInv t integer_vars 0 0 none := by
    refine ⟨le_refl 0, Or.inl ⟨rfl, rfl, ?_⟩⟩
    intro k hk
    exact absurd hk (Nat.not_lt_zero k)
  obtain ⟨m, hm⟩ := findCutRowAux_inv t integer_vars t.num_rows 0 0 none hinv0
  rw [Nat.zero_add] at hm
  have hres : findCutRowAux t integer_vars 0 t.num_rows 0 none
      = find_cut_row t integer_vars := rfl
  rw [hres] at hm
  obtain ⟨hnn, hdisj⟩ := hm
  constructor
  · intro i hi
    rcases hdisj with ⟨hbn, _, _⟩ | ⟨im, hbs, him, himem, hfim, hpos, hlt, hle⟩
    · rw [hi] at hbn; exact absurd hbn (by simp)
    · rw [hi] at hbs
      have him' : im = i := by injection hbs.symm
      subst him'
      exact ⟨himem, him, hfim ▸ hpos, fun k hk hkm => hfim ▸ hlt k hk hkm,
        fun k hk hkm => hfim ▸ hle k hk hkm⟩
  · constructor
    · intro hnone
      rcases hdisj with ⟨_, _, hall⟩ | ⟨im, hbs, _, _, _, _, _, _⟩
      · exact hall
      · rw [hnone] at hbs; exact absurd hbs (by simp)
    · intro hall
      rcases hdisj with ⟨hbn, _, _⟩ | ⟨im, hbs, him, himem, hfim, hpos, _, _⟩
      · exact hbn
      · exact absurd (hall im him himem) (by rw [hfim]; exact ne_of_gt hpos)

/-- Loop invariant of the `find_entering_variable` scan over the reduced-cost
list `rcs` after the entries `k < j` have been examined with running state
`(maxRc, ent)`. -/
def EnterInv (rcs : List ℚ) (j : ℕ) (maxRc : ℚ) (ent : Option ℕ) : Prop :=
  j ≤ rcs.length ∧ 0 ≤ maxRc ∧
  (∀ k < j, rcs.getD k 0 ≤ maxRc) ∧
  ((ent = none ∧ maxRc = 0) ∨
   (∃ jm, ent = some jm ∧ jm < j ∧ rcs.getD jm 0 = maxRc ∧ 0 < maxRc ∧
      ∀ k < jm, rcs.getD k 0 < maxRc))

lemma findEnteringAux_inv (rcs : List ℚ) :
    ∀ (L : List ℚ) (j : ℕ) (maxRc : ℚ) (ent : Option ℕ),
      rcs.drop j = L → EnterInv rcs j maxRc ent →
      ∃ m, EnterInv rcs rcs.length m (findEnteringAux L maxRc ent j) := by
  intro L
  induction L with
  | nil =>
    intro j maxRc ent hdrop h
    have hlen : rcs.length ≤ j := by
      have := congrArg List.length hdrop
      simp only [List.length_drop, List.length_nil] at this
      omega
    have hj : j = rcs.length := le_antisymm h.1 hlen
    subst hj
    exact ⟨maxRc, h⟩
  | cons rc rest ih =>
    intro j maxRc ent hdrop h
    obtain ⟨hjle, hnn, hub, hdisj⟩ := h
    have hlt : j < rcs.length := by
      have := congrArg List.length hdrop
      simp only [List.length_drop, List.length_cons] at this
      omega
    have hsplit : rcs.take j ++ rc :: rest = rcs := by
      rw [← hdrop, List.take_append_drop]
    have htlen : (rcs.take j).length = j := by
      rw [List.length_take]
      omega
    have hrc : rcs.getD j 0 = rc := by
      conv_lhs => rw [← hsplit]
      rw [List.getD_append_right _ _ _ _ (le_of_eq htlen), htlen]
      simp
    have hrest : rcs.drop (j + 1) = rest := by
      have : List.drop 1 (rcs.drop j) = List.drop 1 (rc :: rest) := by rw [hdrop]
      rw [List.drop_drop] at this
      simpa using this
    by_cases hcmp : maxRc < rc
    · have hunf : findEnteringAux (rc :: rest) maxRc ent j
          = findEnteringAux rest rc (some j) (j + 1) := by
        simp only [findEnteringAux, if_pos hcmp]
      rw [hunf]
      refine ih (j + 1) rc (some j) hrest ⟨hlt, le_of_lt (lt_of_le_of_lt hnn hcmp), ?_, ?_⟩
      · intro k hk
        rcases Nat.lt_succ_iff_lt_or_eq.mp hk with hk' | hk'
        · exact le_of_lt (lt_of_le_of_lt (hub k hk') hcmp)
        · subst hk'; rw [hrc]
      · exact Or.inr ⟨j, rfl, Nat.lt_succ_self j, hrc, lt_of_le_of_lt hnn hcmp,
          fun k hk => lt_of_le_of_lt (hub k hk) hcmp⟩
    · have hunf : findEnteringAux (rc :: rest) maxRc ent j
          = findEnteringAux rest maxRc ent (j + 1) := by
        simp only [findEnteringAux, if_neg hcmp]
      rw [hunf]
      refine ih (j + 1) maxRc ent hrest ⟨hlt, hnn, ?_, ?_⟩
      · intro k hk
        rcases Nat.lt_succ_iff_lt_or_eq.mp hk with hk' | hk'
        · exact hub k hk'
        · subst hk'; rw [hrc]; exact not_lt.mp hcmp
      · rcases hdisj with hl | ⟨jm, hjm, hjmlt, hjmv, hpos, hstrict⟩
        · exact Or.inl hl
        · exact Or.inr ⟨jm, hjm, Nat.lt_succ_of_lt hjmlt, hjmv, hpos, hstrict⟩

/-- Loop invariant of the `find_leaving_variable` scan after the rows `k < i`
have been examined with running state `(minRatio, leaving)`. -/
def LeaveInv (t : Tableau) (j : ℕ) (i : ℕ) (minR : Option ℚ) (lv : Option ℕ) : Prop :=
  (minR = none ∧ lv = none ∧ ∀ k < i, t.entry k j ≤ 0) ∨
  (∃ mr im, minR = some mr ∧ lv = some im ∧ im < i ∧ 0 < t.entry im j ∧
     t.b.getD im 0 / t.entry im j = mr ∧
     (∀ k < im, 0 < t.entry k j → mr < t.b.getD k 0 / t.entry k j) ∧
     (∀ k < i, 0 < t.entry k j → mr ≤ t.b.getD k 0 / t.entry k j))

lemma findLeavingAux_inv (t : Tableau) (j : ℕ) :
    ∀ (fuel i : ℕ) (minR : Option ℚ) (lv : Option ℕ),
      LeaveInv t j i minR lv →
      ∃ m, LeaveInv t j (i + fuel) m (findLeavingAux t j i fuel minR lv) := by
  intro fuel
  induction fuel with
  | zero =>
    intro i minR lv h
    exact ⟨minR, by simpa using h⟩
  | succ fuel ih =>
    intro i minR lv h
    have hstep : i + (fuel + 1) = (i + 1) + fuel := by omega
    rw [hstep]
    by_cases hpos : 0 < t.entry i j
    · cases minR with
      | none =>
        obtain ⟨_, hlv, hall⟩ | ⟨mr, im, hmr, _, _, _, _, _, _⟩ := h
        · subst hlv
          have hunf : findLeavingAux t j i (fuel + 1) none none
              = findLeavingAux t j (i + 1) fuel (some (t.b.getD i 0 / t.entry i j))
                  (some i) := by
            simp only [findLeavingAux, if_pos hpos]
          rw [hunf]
          apply ih
          refine Or.inr ⟨_, i, rfl, rfl, Nat.lt_succ_self i, hpos, rfl, ?_, ?_⟩
          · intro k hk hkpos
            exact absurd (hall k hk) (not_le.mpr hkpos)
          · intro k hk hkpos
            rcases Nat.lt_succ_iff_lt_or_eq.mp hk with hk' | hk'
            · exact absurd (hall k hk') (not_le.mpr hkpos)
            · subst hk'; exact le_refl _
        · exact absurd hmr (by simp)
      | some mr =>
        obtain ⟨hmr, _, _⟩ | ⟨mr', im, hmr, hlv, him, himpos, hmrv, hstrict, hle⟩ := h
        · exact absurd hmr (by simp)
        · injection hmr with hmr2
          subst hmr2
          subst hlv
          by_cases hcmp : t.b.getD i 0 / t.entry i j < mr
          · have hunf : findLeavingAux t j i (fuel + 1) (some mr) (some im)
                = findLeavingAux t j (i + 1) fuel
                    (some (t.b.getD i 0 / t.entry i j)) (some i) := by
              simp only [findLeavingAux, if_pos hpos, if_pos hcmp]
            rw [hunf]
            apply ih
            refine Or.inr ⟨_, i, rfl, rfl, Nat.lt_succ_self i, hpos, rfl, ?_, ?_⟩
            · intro k hk hkpos
              exact lt_of_lt_of_le hcmp (hle k hk hkpos)
            · intro k hk hkpos
              rcases Nat.lt_succ_iff_lt_or_eq.mp hk with hk' | hk'
              · exact le_of_lt (lt_of_lt_of_le hcmp (hle k hk' hkpos))
              · subst hk'; exact le_refl _
          · have hunf : findLeavingAux t j i (fuel + 1) (some mr) (some im)
                = findLeavingAux t j (i + 1) fuel (some mr) (some im) := by
              simp only [findLeavingAux, if_pos hpos, if_neg hcmp]
            rw [hunf]
            apply ih
            refine Or.inr ⟨mr, im, rfl, rfl, Nat.lt_succ_of_lt him, himpos, hmrv,
              hstrict, ?_⟩
            intro k hk hkpos
            rcases Nat.lt_succ_iff_lt_or_eq.mp hk with hk' | hk'
            · exact hle k hk' hkpos
            · subst hk'; exact not_lt.mp hcmp
    · have hunf : findLeavingAux t j i (fuel + 1) minR lv
          = findLeavingAux t j (i + 1) fuel minR lv := by
        simp only [findLeavingAux, if_neg hpos]
      rw [hunf]
      apply ih
      rcases h with ⟨hmr, hlv, hall⟩ | ⟨mr, im, hmr, hlv, him, himpos, hmrv, hstrict, hle⟩
      · refine Or.inl ⟨hmr, hlv, ?_⟩
        intro k hk
        rcases Nat.lt_succ_iff_lt_or_eq.mp hk with hk' | hk'
        · exact hall k hk'
        · subst hk'; exact not_lt.mp hpos
      · refine Or.inr ⟨mr, im, hmr, hlv, Nat.lt_succ_of_lt him, himpos, hmrv,
          hstrict, ?_⟩
        intro k hk hkpos
        rcases Nat.lt_succ_iff_lt_or_eq.mp hk with hk' | hk'
        · exact hle k hk' hkpos
        · subst hk'; exact absurd hkpos hpos

/-- **C3**: at every non-optimal step of the primal simplex, the entering
column is the first column attaining the strictly largest positive reduced
cost, and the leaving row is the first row attaining the strictly smallest
ratio `rhs[i] / matrix[i][entering]` among rows with positive entry; the loop
then pivots there, and when no row has a positive entry it reports
Unbounded. -/
theorem primal_step_selection (t : Tableau) (iteration fuel : ℕ)
    (hopt : t.is_optimal_primal = false) :
    ∃ j, find_entering_variable t = some j ∧
      (0 < t.compute_reduced_costs.getD j 0 ∧ j < t.num_cols ∧
        (∀ k < j, t.compute_reduced_costs.getD k 0 < t.compute_reduced_costs.getD j 0) ∧
        (∀ k < t.num_cols,
          t.compute_reduced_costs.getD k 0 ≤ t.compute_reduced_costs.getD j 0)) ∧
      (∀ i, find_leaving_variable t j = some i →
        0 < t.entry i j ∧ i < t.num_rows ∧
        (∀ k < i, 0 < t.entry k j →
          t.b.getD i 0 / t.entry i j < t.b.getD k 0 / t.entry k j) ∧
        (∀ k < t.num_rows, 0 < t.entry k j →
          t.b.getD i 0 / t.entry i j ≤ t.b.getD k 0 / t.entry k j) ∧
        ∃ t2, t.pivot i j = some t2 ∧
          primalSimplexAux t iteration (fuel + 1)
            = primalSimplexAux t2 (iteration + 1) fuel) ∧
      (find_leaving_variable t j = none →
        (∀ k < t.num_rows, t.entry k j ≤ 0) ∧
        primalSimplexAux t iteration (fuel + 1)
          = some ⟨SimplexStatus.UNBOUNDED, t, none, none, iteration⟩) := by
  have hinv0 : EnterInv t.compute_reduced_costs 0 0 none :=
    ⟨Nat.zero_le _, le_refl 0, fun k hk => absurd hk (Nat.not_lt_zero k),
      Or.inl ⟨rfl, rfl⟩⟩
  obtain ⟨m, hm⟩ :=
    findEnteringAux_inv t.compute_reduced_costs t.compute_reduced_costs 0 0 none
      rfl hinv0
  have hresdef : findEnteringAux t.compute_reduced_costs 0 none 0
      = find_entering_variable t := rfl
  rw [hresdef] at hm
  obtain ⟨hle, hnn, hub, hdisj⟩ := hm
  have hlen : t.compute_reduced_costs.length = t.num_cols := by
    simp [Tableau.compute_reduced_costs]
  rcases hdisj with ⟨hent, hm0⟩ | ⟨jm, hent, hjm, hjv, hpos, hstrict⟩
  · exfalso
    have htrue : t.is_optimal_primal = true := by
      rw [Tableau.is_optimal_primal, List.all_eq_true]
      intro x hx
      obtain ⟨k, hk, hkx⟩ := List.mem_iff_getElem.mp hx
      have := hub k hk
      rw [hm0, List.getD_eq_getElem _ _ hk, hkx] at this
      simpa using this
    rw [hopt] at htrue
    exact Bool.noConfusion htrue
  · refine ⟨jm, hent, ⟨hjv ▸ hpos, hlen ▸ hjm,
      fun k hk => hjv ▸ hstrict k hk,
      fun k hk => hjv ▸ hub k (hlen ▸ hk)⟩, ?_, ?_⟩
    · intro i hi
      have hinvL : LeaveInv t jm 0 none none :=
        Or.inl ⟨rfl, rfl, fun k hk => absurd hk (Nat.not_lt_zero k)⟩
      obtain ⟨mL, hmL⟩ := findLeavingAux_inv t jm t.num_rows 0 none none hinvL
      rw [Nat.zero_add] at hmL
      have hLdef : findLeavingAux t jm 0 t.num_rows none none
          = find_leaving_variable t jm := rfl
      rw [hLdef, hi] at hmL
      rcases hmL with ⟨_, hlv, _⟩ | ⟨mr, im, hmr, hlv, him, himpos, hmrv, hstrictL, hleL⟩
      · exact absurd hlv (by simp)
      · injection hlv with him2
        subst him2
        refine ⟨himpos, him,
          fun k hk hkpos => hmrv ▸ hstrictL k hk hkpos,
          fun k hk hkpos => hmrv ▸ hleL k hk hkpos, ?_⟩
        have hpne : t.entry i jm ≠ 0 := ne_of_gt himpos
        obtain ⟨t2, ht2⟩ : ∃ t2, t.pivot i jm = some t2 := by
          rw [Tableau.pivot]
          simp only [if_neg hpne]
          exact ⟨_, rfl⟩
        refine ⟨t2, ht2, ?_⟩
        simp only [primalSimplexAux, hopt, Bool.false_eq_true, if_false, hent, hi, ht2]
    · intro hnone
      have hinvL : LeaveInv t jm 0 none none :=
        Or.inl ⟨rfl, rfl, fun k hk => absurd hk (Nat.not_lt_zero k)⟩
      obtain ⟨mL, hmL⟩ := findLeavingAux_inv t jm t.num_rows 0 none none hinvL
      rw [Nat.zero_add] at hmL
      have hLdef : findLeavingAux t jm 0 t.num_rows none none
          = find_leaving_variable t jm := rfl
      rw [hLdef, hnone] at hmL
      rcases hmL with ⟨_, _, hall⟩ | ⟨mr, im, hmr, hlv, _⟩
      · refine ⟨hall, ?_⟩
        simp only [primalSimplexAux, hopt, Bool.false_eq_true, if_false, hent, hnone]
      · exact absurd hlv (by simp)

/-- A concrete non-optimal tableau (reduced costs `[1, 0]`) for the primal
step witness. -/
def nonOptimalTableau : Tableau := Tableau.make [[1, 1]] [2] [1, 0] [1]

theorem primal_step_selection_witness :
    nonOptimalTableau.is_optimal_primal = false ∧
    ∃ j, find_entering_variable nonOptimalTableau = some j ∧
      (0 < nonOptimalTableau.compute_reduced_costs.getD j 0 ∧
        j < nonOptimalTableau.num_cols ∧
        (∀ k < j, nonOptimalTableau.compute_reduced_costs.getD k 0
          < nonOptimalTableau.compute_reduced_costs.getD j 0) ∧
        (∀ k < nonOptimalTableau.num_cols,
          nonOptimalTableau.compute_reduced_costs.getD k 0
            ≤ nonOptimalTableau.compute_reduced_costs.getD j 0)) ∧
      (∀ i, find_leaving_variable nonOptimalTableau j = some i →
        0 < nonOptimalTableau.entry i j ∧ i < nonOptimalTableau.num_rows ∧
        (∀ k < i, 0 < nonOptimalTableau.entry k j →
          nonOptimalTableau.b.getD i 0 / nonOptimalTableau.entry i j
            < nonOptimalTableau.b.getD k 0 / nonOptimalTableau.entry k j) ∧
        (∀ k < nonOptimalTableau.num_rows, 0 < nonOptimalTableau.entry k j →
          nonOptimalTableau.b.getD i 0 / nonOptimalTableau.entry i j
            ≤ nonOptimalTableau.b.getD k 0 / nonOptimalTableau.entry k j) ∧
        ∃ t2, nonOptimalTableau.pivot i j = some t2 ∧
          primalSimplexAux nonOptimalTableau 0 (3 + 1)
            = primalSimplexAux t2 (0 + 1) 3) ∧
      (find_leaving_variable nonOptimalTableau j = none →
        (∀ k < nonOptimalTableau.num_rows, nonOptimalTableau.entry k j ≤ 0) ∧
        primalSimplexAux nonOptimalTableau 0 (3 + 1)
          = some ⟨SimplexStatus.UNBOUNDED, nonOptimalTableau, none, none, 0⟩) := by
  have hopt : nonOptimalTableau.is_optimal_primal = false := by
    norm_num [nonOptimalTableau, Tableau.is_optimal_primal,
      Tableau.compute_reduced_costs, Tableau.marginal, Tableau.entry, Tableau.make,
      Tableau.num_cols, Tableau.num_rows, List.range_succ]
  exact ⟨hopt, primal_step_selection nonOptimalTableau 0 3 hopt⟩

/-- The concrete input exhibiting the solver's lost `MAX_ITERATIONS` status:
`max x1` subject to `x1 ≤ 1`, no integer variables, iteration cap `0`. -/
def failingProblem : Problem :=
  { objective := [1]
    sense := Sense.MAXIMIZE
    constraints := [⟨[1], ConstraintType.LEQ, 1⟩]
    integer_vars := []
    var_names := ["x1"] }

/-- **C1** (divergence witness): on `failingProblem` with `max_iterations = 0`
the primal simplex returns `MAX_ITERATIONS`, yet `solve` terminates with
status `INFEASIBLE` — not `MAX_ITERATIONS` as specified — because
`solve` maps every non-`OPTIMAL`, non-`UNBOUNDED` primal result to
`INFEASIBLE` (`solver.py` lines 240-245) and never checks the dual-simplex
status for `MAX_ITERATIONS` (`solver.py` lines 337-347). -/
theorem solver_max_iterations_lost :
    (create_initial_tableau failingProblem).map (fun t =>
      (primal_simplex t 0).map (fun r => r.status))
      = some (some SimplexStatus.MAX_ITERATIONS) ∧
    (solve failingProblem 0 50).map (fun r => r.status)
      = some SolverStatus.INFEASIBLE := by
  constructor <;> rfl

lemma solveCutLoop_conv (ivars : List ℕ) (numVars maxIter : ℕ) :
    ∀ (fuel : ℕ) (t : Tableau) (numCuts iterCount : ℕ),
      solveCutLoop true ivars numVars maxIter fuel t numCuts iterCount
        = (solveCutLoop false ivars numVars maxIter fuel t numCuts iterCount).map
            (fun r => { r with optimal_value := r.optimal_value.map (fun z => -z) }) := by
  intro fuel
  induction fuel with
  | zero =>
    intro t numCuts iterCount
    simp [solveCutLoop, convert_objective]
  | succ fuel ih =>
    intro t numCuts iterCount
    by_cases hint : t.has_integer_solution ivars
    · simp [solveCutLoop, hint, convert_objective]
    · cases hcut : find_cut_row t ivars with
      | none => simp [solveCutLoop, hint, hcut, convert_objective]
      | some cutRow =>
        cases hdual : dual_simplex
            (add_cut_to_tableau t (generate_gomory_cut t cutRow)) maxIter with
        | none => simp [solveCutLoop, hint, hcut, hdual]
        | some dres =>
          by_cases hinf : dres.status = SimplexStatus.INFEASIBLE
          · simp [solveCutLoop, hint, hcut, hdual, hinf]
          · simp [solveCutLoop, hint, hcut, hdual, hinf, ih]

/-- **C7**: for every problem whose sense is MINIMIZE, `solve` solves the
maximization problem with negated objective coefficients, and the reported
result is that maximization result with the optimal value negated
(sign-corrected for the original minimization sense). -/
theorem minimize_sign_conversion (p : Problem) (maxIter maxCuts : ℕ)
    (h : p.sense = Sense.MINIMIZE) :
    solve p maxIter maxCuts
      = (solve { p with objective := p.objective.map (fun c => -c),
                        sense := Sense.MAXIMIZE } maxIter maxCuts).map
          (fun r => { r with optimal_value := r.optimal_value.map (fun z => -z) }) := by
  simp only [solve, h, eq_self_iff_true, reduceCtorEq, decide_True, decide_False,
    if_true, if_false, Problem.num_variables, List.length_map]
  cases hct : create_initial_tableau
      { p with objective := p.objective.map (fun c => -c), sense := Sense.MAXIMIZE } with
  | none => rfl
  | some t0 =>
    dsimp only
    cases hps : primal_simplex t0 maxIter with
    | none => rfl
    | some res =>
      dsimp only
      by_cases hub : res.status = SimplexStatus.UNBOUNDED
      · simp [hub]
      · by_cases hno : res.status = SimplexStatus.OPTIMAL
        · by_cases hiv : p.integer_vars = []
          · simp only [hub, hno, hiv, eq_self_iff_true, reduceCtorEq, if_true, if_false,
              ite_true, ite_false, not_true_eq_false, not_false_eq_true, Option.map_some]
            cases res.objective_value with
            | none => simp [convert_objective]
            | some z => simp [convert_objective]
          · simp only [hub, hno, hiv, eq_self_iff_true, reduceCtorEq, if_true, if_false,
              ite_true, ite_false, not_true_eq_false, not_false_eq_true]
            exact solveCutLoop_conv p.integer_vars p.objective.length maxIter maxCuts
              res.tableau 0 (1 + res.iterations)
        · simp [hub, hno]

/-- A concrete minimization problem for the sign-conversion witness. -/
def minProblem : Problem :=
  { objective := [-2, -3]
    sense := Sense.MINIMIZE
    constraints := [⟨[1, 0], ConstraintType.LEQ, 2⟩, ⟨[0, 1], ConstraintType.LEQ, 3⟩]
    integer_vars := []
    var_names := ["x1", "x2"] }

theorem minimize_sign_conversion_witness :
    minProblem.sense = Sense.MINIMIZE ∧
    solve minProblem 100 50
      = (solve { minProblem with
            objective := minProblem.objective.map (fun c => -c),
            sense := Sense.MAXIMIZE } 100 50).map
          (fun r => { r with optimal_value := r.optimal_value.map (fun z => -z) }) :=
  ⟨rfl, minimize_sign_conversion minProblem 100 50 rfl⟩

/-! ## State-passing embeddings of the mutating method bodies (`tableau.py`
`pivot`, `gomory_cut.py` `add_cut_to_tableau`)

Both Python methods first take a full deep copy of the tableau and then
mutate only the copy.  `deepcopy` yields an equal value sharing no structure
with the original, so the method body is embedded as explicit state passing
over the pair `(self, new_tableau)`: each statement of the source updates the
second component only.  The first component of the result is `self` as the
method leaves it. -/

/-- The first mutation loop of `pivot`: divide the pivot row of the matrix
and its right-hand side by the pivot element; other rows are untouched. -/
def dividePivotRow (t : Tableau) (pr : ℕ) (pe : ℚ) : Tableau :=
  { t with
    matrix := (List.range t.num_rows).map (fun i =>
      if i = pr then (List.range t.num_cols).map (fun j => t.entry pr j / pe)
      else t.matrix.getD i [])
    b := (List.range t.num_rows).map (fun i =>
      if i = pr then t.b.getD pr 0 / pe else t.b.getD i 0) }

/-- The second mutation loop of `pivot`: subtract `factor * pivotRow` from
every other row (`factor = matrix[i][pivot_col]` read before the row update,
the pivot row itself already divided). -/
def eliminateRows (t : Tableau) (pr pc : ℕ) : Tableau :=
  { t with
    matrix := (List.range t.num_rows).map (fun i =>
      if i = pr then t.matrix.getD i []
      else (List.range t.num_cols).map (fun j =>
        t.entry i j - t.entry i pc * t.entry pr j))
    b := (List.range t.num_rows).map (fun i =>
      if i = pr then t.b.getD i 0
      else t.b.getD i 0 - t.entry i pc * t.b.getD pr 0) }

/-- Statement-by-statement embedding of `Tableau.pivot` threading `self`
through the state: returns (`self` after the call, the result or `none` for
the `ValueError` raise). -/
def pivotProg (self : Tableau) (pr pc : ℕ) : Tableau × Option Tableau :=
  let s0 : Tableau × Tableau := (self, self)
  let pivot_element := (s0.2.matrix.getD pr []).getD pc 0
  if pivot_element = 0 then
    (s0.1, none)
  else
    let s1 : Tableau × Tableau := (s0.1, dividePivotRow s0.2 pr pivot_element)
    let s2 : Tableau × Tableau := (s1.1, eliminateRows s1.2 pr pc)
    let s3 : Tableau × Tableau := (s2.1, { s2.2 with basis := s2.2.basis.set pr pc })
    let s4 : Tableau × Tableau :=
      (s3.1, { s3.2 with c_b := s3.2.c_b.set pr (s3.2.c.getD pc 0) })
    (s4.1, some s4.2)

/-- Statement-by-statement embedding of `add_cut_to_tableau` threading
`self` through the state. -/
def addCutProg (self : Tableau) (cut : GomoryCut) : Tableau × Tableau :=
  let s0 : Tableau × Tableau := (self, self)
  let new_var_idx := s0.2.num_cols
  let s1 : Tableau × Tableau :=
    (s0.1, { s0.2 with matrix := s0.2.matrix.map (fun row => row ++ [0]) })
  let s2 : Tableau × Tableau :=
    (s1.1, { s1.2 with
      c := s1.2.c ++ [0]
      var_names := s1.2.var_names ++ ["x" ++ toString (new_var_idx + 1)] })
  let s3 : Tableau × Tableau :=
    (s2.1, { s2.2 with
      matrix := s2.2.matrix ++ [cut.coefficients ++ [1]]
      b := s2.2.b ++ [cut.rhs]
      basis := s2.2.basis ++ [new_var_idx]
      c_b := s2.2.c_b ++ [0] })
  (s3.1, s3.2)

lemma tableau_eq_of_fields {A B : Tableau} (h1 : A.matrix = B.matrix)
    (h2 : A.b = B.b) (h3 : A.c = B.c) (h4 : A.basis = B.basis)
    (h5 : A.c_b = B.c_b) (h6 : A.var_names = B.var_names)
    (h7 : A.num_original_vars = B.num_original_vars) : A = B := by
  cases A; cases B; simp_all

lemma pivotProg_result (t : Tableau) (pr pc : ℕ) :
    (pivotProg t pr pc).2 = t.pivot pr pc := by
  by_cases hpe : t.entry pr pc = 0
  · simp only [pivotProg, Tableau.pivot, Tableau.entry] at hpe ⊢
    rw [if_pos hpe, if_pos hpe]
  · have hpr : pr < t.num_rows := by
      by_contra hge
      apply hpe
      rw [Tableau.entry, List.getD_eq_default _ _ (not_lt.mp hge)]
      rfl
    simp only [pivotProg, Tableau.pivot, Tableau.entry] at hpe ⊢
    rw [if_neg hpe, if_neg hpe]
    have hcols : (dividePivotRow t pr ((t.matrix.getD pr []).getD pc 0)).num_cols
        = t.num_cols := rfl
    have hrows : (dividePivotRow t pr ((t.matrix.getD pr []).getD pc 0)).num_rows
        = t.num_rows := by
      simp [dividePivotRow, Tableau.num_rows]
    have hDentry_ne : ∀ i j, i ≠ pr → i < t.num_rows →
        (dividePivotRow t pr ((t.matrix.getD pr []).getD pc 0)).entry i j
          = t.entry i j := by
      intro i j hne hi
      show (((List.range t.num_rows).map _).getD i []).getD j 0 = _
      rw [getD_range_map _ hi, if_neg hne]
      rfl
    have hDentry_pr : ∀ j, j < t.num_cols →
        (dividePivotRow t pr ((t.matrix.getD pr []).getD pc 0)).entry pr j
          = t.entry pr j / (t.matrix.getD pr []).getD pc 0 := by
      intro j hj
      show (((List.range t.num_rows).map _).getD pr []).getD j 0 = _
      rw [getD_range_map _ hpr, if_pos rfl, getD_range_map _ hj]
    have hDb : ∀ i, i < t.num_rows →
        (dividePivotRow t pr ((t.matrix.getD pr []).getD pc 0)).b.getD i 0
          = (if i = pr then t.b.getD pr 0 / (t.matrix.getD pr []).getD pc 0
             else t.b.getD i 0) := by
      intro i hi
      show ((List.range t.num_rows).map _).getD i 0 = _
      rw [getD_range_map _ hi]
    show some _ = some _
    refine congrArg some (tableau_eq_of_fields ?_ ?_ rfl rfl rfl rfl rfl)
    · -- the matrix computed in two stages equals the one-shot matrix
      show (List.range _).map _ = (List.range t.num_rows).map _
      rw [hrows]
      apply List.map_congr_left
      intro i hi
      have hilt : i < t.num_rows := List.mem_range.mp hi
      by_cases hipr : i = pr
      · subst hipr
        rw [if_pos rfl, if_pos rfl]
        show ((List.range t.num_rows).map _).getD i [] = _
        rw [getD_range_map _ hilt, if_pos rfl]
        rfl
      · rw [if_neg hipr, if_neg hipr, hcols]
        apply List.map_congr_left
        intro j hj
        have hjlt : j < t.num_cols := List.mem_range.mp hj
        rw [hDentry_ne i j hipr hilt, hDentry_ne i pc hipr hilt,
          hDentry_pr j hjlt]
        rfl
    · -- the right-hand sides likewise
      show (List.range _).map _ = (List.range t.num_rows).map _
      rw [hrows]
      apply List.map_congr_left
      intro i hi
      have hilt : i < t.num_rows := List.mem_range.mp hi
      by_cases hipr : i = pr
      · subst hipr
        rw [if_pos rfl, if_pos rfl, hDb i hilt, if_pos rfl]
      · rw [if_neg hipr, if_neg hipr, hDb i hilt, if_neg hipr,
          hDentry_ne i pc hipr hilt, hDb pr hpr, if_pos rfl]
        rfl

/-- **C9**: `pivot` and cut-append are pure: threading `self` through every
statement of the method bodies (the copy being mutated instead), `self` comes
back unchanged — also when `pivot` fails with `ZeroPivotElement` — and the
produced value is exactly the functional `pivot` / `add_cut_to_tableau`
result. -/
theorem pure_transformations (t : Tableau) (pr pc : ℕ) (cut : GomoryCut) :
    (pivotProg t pr pc).1 = t ∧
    (pivotProg t pr pc).2 = t.pivot pr pc ∧
    (addCutProg t cut).1 = t ∧
    (addCutProg t cut).2 = add_cut_to_tableau t cut := by
  refine ⟨?_, pivotProg_result t pr pc, rfl, rfl⟩
  by_cases hpe : (t.matrix.getD pr []).getD pc 0 = 0
  · simp only [pivotProg]
    rw [if_pos hpe]
  · simp only [pivotProg]
    rw [if_neg hpe]

end Gomory
